import Mathlib

/-!
Shallow embedding of brainrust (src/main.rs), a brainfuck interpreter:
the token type, the tokenizer state machine, the bracket-resolution
post-pass and the execution engine are translated from the source.
Panics are modelled as Option failure / a fatal step result, stdout as
the list of bytes written, stdin as a list of bytes.
-/

namespace Brainrust

/-- The Token enum of src/main.rs (lines 9-19). -/
inductive Token
  | RAngle
  | LAngle
  | Plus
  | Minus
  | Period
  | Comma
  | LBracket (target : Nat)
  | RBracket (target : Nat)
deriving DecidableEq

/-- The TokenizerState enum of src/main.rs (lines 21-26). -/
inductive TokenizerState
  | Token
  | TrailingWhitespace
  | LeadingWhitespace
deriving DecidableEq

/-- char_to_token of src/main.rs (lines 45-62). -/
def char_to_token (ch : Char) : Option Token :=
  match ch with
  | '>' => some Token.RAngle
  | '<' => some Token.LAngle
  | '+' => some Token.Plus
  | '-' => some Token.Minus
  | '.' => some Token.Period
  | ',' => some Token.Comma
  | '[' => some (Token.LBracket 0)
  | ']' => some (Token.RBracket 0)
  | _ => none

/-- The character loop of tokenize (src/main.rs lines 70-93): the three
state tokenizer that pushes recognized characters and drops the rest. -/
def scanGo : TokenizerState → List Char → List Token
  | _, [] => []
  | TokenizerState.LeadingWhitespace, c :: cs =>
    match char_to_token c with
    | some t => t :: scanGo TokenizerState.Token cs
    | none => scanGo TokenizerState.LeadingWhitespace cs
  | TokenizerState.Token, c :: cs =>
    match char_to_token c with
    | some t => t :: scanGo TokenizerState.Token cs
    | none => scanGo TokenizerState.TrailingWhitespace cs
  | TokenizerState.TrailingWhitespace, c :: cs =>
    if c = '\n' ∨ c = '\r' then scanGo TokenizerState.LeadingWhitespace cs
    else scanGo TokenizerState.TrailingWhitespace cs

/-- The scan phase of tokenize: state starts as LeadingWhitespace
(src/main.rs line 71). -/
def scan (cs : List Char) : List Token :=
  scanGo TokenizerState.LeadingWhitespace cs

/-- The bracket test done by the if-lets of the resolution pass:
true exactly when the token at index i is an LBracket. -/
def isOpenAt (L : List Token) (i : Nat) : Bool :=
  match L[i]? with
  | some (Token.LBracket _) => true
  | _ => false

/-- True exactly when the token at index i is an RBracket. -/
def isCloseAt (L : List Token) (i : Nat) : Bool :=
  match L[i]? with
  | some (Token.RBracket _) => true
  | _ => false

/-- Depth update of the forward scan (src/main.rs lines 102-106):
RBracket decrements, LBracket increments. -/
def depthAdjF (d : Nat) (t : Token) : Nat :=
  match t with
  | Token.RBracket _ => d - 1
  | Token.LBracket _ => d + 1
  | _ => d

/-- Depth update of the backward scan (src/main.rs lines 119-123),
with d standing for the negation of the Rust depth (which starts at -1
and never exceeds 0 while the loop runs): RBracket increments d,
LBracket decrements it. -/
def depthAdjB (d : Nat) (t : Token) : Nat :=
  match t with
  | Token.RBracket _ => d + 1
  | Token.LBracket _ => d - 1
  | _ => d

/-- The forward scan loop `while depth > 0 && p < tokens.len()` of the
resolution pass (src/main.rs lines 99-108). fuel bounds the iteration
count; the loop runs at most L.length - p times since p strictly
increases, so fuel = L.length + 1 is never exhausted. -/
def scanFGo (L : List Token) : Nat → Nat → Nat → Nat
  | 0, _, p => p
  | fuel + 1, d, p =>
    if 0 < d ∧ p < L.length then
      scanFGo L fuel (match L[p]? with | some t => depthAdjF d t | none => d) (p + 1)
    else p

/-- Forward scan entry: depth starts at 1, p at i+1 in the caller. -/
def scanF (L : List Token) (d p : Nat) : Nat :=
  scanFGo L (L.length + 1) d p

/-- The backward scan loop `while depth < 0 && p > 0` of the resolution
pass (src/main.rs lines 116-125), with d the negated depth. fuel bounds
the iteration count; the loop runs at most p times since p strictly
decreases, so fuel = L.length + 1 is never exhausted. -/
def scanBGo (L : List Token) : Nat → Nat → Nat → Nat
  | 0, _, p => p
  | fuel + 1, d, p =>
    if 0 < d ∧ 0 < p then
      scanBGo L fuel (match L[p]? with | some t => depthAdjB d t | none => d) (p - 1)
    else p

/-- Backward scan entry. -/
def scanB (L : List Token) (d p : Nat) : Nat :=
  scanBGo L (L.length + 1) d p

/-- Resolution of one token (the match arms of src/main.rs lines
97-135).  The Rust loop iterates over a clone of the token vector and
mutates the live vector, but resolution only rewrites bracket payloads
and every test in the pass inspects constructors only, so reading all
scans from the original list L is equivalent (lemmas resolveGo_congr /
strip lemmas below substantiate this).  The in-bound accesses
tokens[p-1] and tokens[p+1] are modelled by isCloseAt / isOpenAt, which
are false out of range (the Rust indices are always in range there:
for an open q >= i+1 >= 1 and q <= len, for a close q+1 <= i < len).
A panic is modelled as none; the `i = 0` close case models the usize
underflow panic of `let mut p = i-1`. -/
def resolveTok (L : List Token) (i : Nat) (t : Token) : Option Token :=
  match t with
  | Token.LBracket _ =>
    let q := scanF L 1 (i + 1)
    if isCloseAt L (q - 1) then some (Token.LBracket q) else none
  | Token.RBracket _ =>
    if i = 0 then none
    else
      let q := scanB L 1 (i - 1)
      if isOpenAt L (q + 1) then some (Token.RBracket q)
      else if q = 0 then some (Token.RBracket 1)
      else none
  | t => some t

/-- The resolution pass over all indices (src/main.rs lines 96-136). -/
def resolveGo (L : List Token) : Nat → List Token → Option (List Token)
  | _, [] => some []
  | i, t :: rest =>
    match resolveTok L i t with
    | none => none
    | some r =>
      match resolveGo L (i + 1) rest with
      | none => none
      | some rs => some (r :: rs)

/-- Bracket resolution of a scanned token list. -/
def resolve (L : List Token) : Option (List Token) :=
  resolveGo L 0 L

/-- tokenize (src/main.rs lines 67-138): scan then resolve; none models
a panic on an unmatched bracket. -/
def tokenize (cs : List Char) : Option (List Token) :=
  resolve (scan cs)

/-! ## The execution engine (run_program, src/main.rs lines 144-198) -/

/-- Machine state of run_program: the tape (data), both cursors, and the
modelled stdin / stdout byte streams. -/
structure MachineState where
  data : List Nat
  data_pointer : Nat
  instr_pointer : Nat
  stdin : List Nat
  stdout : List Nat
deriving DecidableEq

/-- Result of one engine step: still running, halted normally (the while
condition failed), or a panic. -/
inductive StepRes
  | running (s : MachineState)
  | halted (s : MachineState)
  | fatal
deriving DecidableEq

/-- Tape growth at the top of the interpreter loop (src/main.rs lines
153-155): push one zero cell when the data pointer is not yet a valid
index. -/
def growTape (data : List Nat) (dp : Nat) : List Nat :=
  if data.length ≤ dp then data ++ [0] else data

/-- u8::wrapping_add(1) on a cell value below 256. -/
def wrapping_add1 (v : Nat) : Nat := (v + 1) % 256

/-- u8::wrapping_sub(1) on a cell value below 256. -/
def wrapping_sub1 (v : Nat) : Nat := (v + 255) % 256

/-- The bytes print! writes for `v as char` (src/main.rs line 174): the
UTF-8 encoding of the code point v; two bytes for v in 128..=255. -/
def utf8Bytes (v : Nat) : List Nat :=
  if v < 128 then [v] else [192 + v / 64, 128 + v % 64]

/-- One iteration of the interpreter loop (src/main.rs lines 151-197).
program[instr_pointer]? = none exactly models the failed while guard
instr_pointer < program.len(), i.e. normal termination.  Every cell
read data[data_pointer] is modelled through the grown tape with a fatal
result on an out-of-range index (the Rust indexing panic; shown
unreachable from the initial state below).  The trailing
`instr_pointer += 1` of line 196 is applied in every arm, including
after a jump rewrote the pointer. -/
def step (program : List Token) (s : MachineState) : StepRes :=
  match program[s.instr_pointer]? with
  | none => StepRes.halted s
  | some tok =>
    let data := growTape s.data s.data_pointer
    match tok with
    | Token.RAngle =>
      StepRes.running { s with data := data, data_pointer := s.data_pointer + 1,
                               instr_pointer := s.instr_pointer + 1 }
    | Token.LAngle =>
      if s.data_pointer = 0 then StepRes.fatal
      else
        StepRes.running { s with data := data, data_pointer := s.data_pointer - 1,
                                 instr_pointer := s.instr_pointer + 1 }
    | Token.Plus =>
      match data[s.data_pointer]? with
      | some v =>
        StepRes.running { s with data := data.set s.data_pointer (wrapping_add1 v),
                                 instr_pointer := s.instr_pointer + 1 }
      | none => StepRes.fatal
    | Token.Minus =>
      match data[s.data_pointer]? with
      | some v =>
        StepRes.running { s with data := data.set s.data_pointer (wrapping_sub1 v),
                                 instr_pointer := s.instr_pointer + 1 }
      | none => StepRes.fatal
    | Token.Period =>
      match data[s.data_pointer]? with
      | some v =>
        StepRes.running { s with data := data, stdout := s.stdout ++ utf8Bytes v,
                                 instr_pointer := s.instr_pointer + 1 }
      | none => StepRes.fatal
    | Token.Comma =>
      match s.stdin with
      | [] => StepRes.fatal
      | b :: rest =>
        match data[s.data_pointer]? with
        | some _ =>
          StepRes.running { s with data := data.set s.data_pointer (b % 256),
                                   stdin := rest, instr_pointer := s.instr_pointer + 1 }
        | none => StepRes.fatal
    | Token.LBracket t =>
      match data[s.data_pointer]? with
      | some v =>
        StepRes.running { s with data := data,
                                 instr_pointer := (if v = 0 then t else s.instr_pointer) + 1 }
      | none => StepRes.fatal
    | Token.RBracket t =>
      match data[s.data_pointer]? with
      | some v =>
        StepRes.running { s with data := data,
                                 instr_pointer := (if v ≠ 0 then t else s.instr_pointer) + 1 }
      | none => StepRes.fatal

/-- Initial state of run_program (src/main.rs lines 147-149): empty
tape, both cursors at 0. -/
def initState (stdin : List Nat) : MachineState :=
  { data := [], data_pointer := 0, instr_pointer := 0, stdin := stdin, stdout := [] }

/-- Iterate the engine for at most fuel steps (once halted or fatal the
result is final). -/
def stepIter (program : List Token) : Nat → StepRes → StepRes
  | 0, r => r
  | n + 1, StepRes.running s => stepIter program n (step program s)
  | _ + 1, r => r

/-- run_program from the initial state. -/
def run (program : List Token) (stdin : List Nat) (fuel : Nat) : StepRes :=
  stepIter program fuel (StepRes.running (initState stdin))

/-- End-to-end: tokenize then run; some gives the bytes on stdout at a
normal halt. -/
def runOut (cs : List Char) (stdin : List Nat) (fuel : Nat) : Option (List Nat) :=
  match tokenize cs with
  | none => none
  | some program =>
    match run program stdin fuel with
    | StepRes.halted s => some s.stdout
    | _ => none

/-! ## Specification-side notions: bracket depth, structural matching -/

/-- Depth contribution of one token: +1 for an open bracket, -1 for a
close bracket, 0 otherwise. -/
def delta : Token → Int
  | Token.LBracket _ => 1
  | Token.RBracket _ => -1
  | _ => 0

/-- Prefix depth: sum of delta over the first n tokens. -/
def pre (L : List Token) : Nat → Int
  | 0 => 0
  | n + 1 => pre L n + (match L[n]? with | some t => delta t | none => 0)

/-- Structural matching of brackets, the standard depth
characterization: the open at i and the close at j are partners when
the depth returns to its value at i exactly after j, staying strictly
above it in between. -/
def matched (L : List Token) (i j : Nat) : Prop :=
  i < j ∧ j < L.length ∧ isOpenAt L i = true ∧ isCloseAt L j = true ∧
    pre L (j + 1) = pre L i ∧ ∀ m < j + 1, i < m → pre L i < pre L m

instance (L : List Token) (i j : Nat) : Decidable (matched L i j) := by
  unfold matched; infer_instance

/-- A balanced (well-formed) bracket sequence: total depth zero, and no
prefix goes negative. -/
def balanced (L : List Token) : Prop :=
  pre L L.length = 0 ∧ ∀ n < L.length + 1, 0 ≤ pre L n

instance (L : List Token) : Decidable (balanced L) := by
  unfold balanced; infer_instance

/-- Erase bracket payloads; the constructor-only view of a token. -/
def strip : Token → Token
  | Token.LBracket _ => Token.LBracket 0
  | Token.RBracket _ => Token.RBracket 0
  | t => t

/-- Canonical textual rendering of one instruction as its source
character. -/
def renderTok : Token → Char
  | Token.RAngle => '>'
  | Token.LAngle => '<'
  | Token.Plus => '+'
  | Token.Minus => '-'
  | Token.Period => '.'
  | Token.Comma => ','
  | Token.LBracket _ => '['
  | Token.RBracket _ => ']'

/-- Canonical textual rendering of a Program. -/
def render (ts : List Token) : List Char :=
  ts.map renderTok

/-- The characters of the input that are not inside a trailing-comment
region: the same three-state machine as scanGo, keeping every character
it examines with char_to_token and dropping exactly the characters
consumed in the TrailingWhitespace state. -/
def stripGo : TokenizerState → List Char → List Char
  | _, [] => []
  | TokenizerState.LeadingWhitespace, c :: cs =>
    match char_to_token c with
    | some _ => c :: stripGo TokenizerState.Token cs
    | none => c :: stripGo TokenizerState.LeadingWhitespace cs
  | TokenizerState.Token, c :: cs =>
    match char_to_token c with
    | some _ => c :: stripGo TokenizerState.Token cs
    | none => c :: stripGo TokenizerState.TrailingWhitespace cs
  | TokenizerState.TrailingWhitespace, c :: cs =>
    if c = '\n' ∨ c = '\r' then stripGo TokenizerState.LeadingWhitespace cs
    else stripGo TokenizerState.TrailingWhitespace cs

/-- Input with trailing-comment regions removed. -/
def stripComments (cs : List Char) : List Char :=
  stripGo TokenizerState.LeadingWhitespace cs

/-! ## Basic lemmas on depth sums -/

lemma delta_cases (t : Token) : delta t = 1 ∨ delta t = -1 ∨ delta t = 0 := by
  cases t <;> simp [delta]

lemma pre_succ (L : List Token) (n : Nat) :
    pre L (n + 1) = pre L n + (match L[n]? with | some t => delta t | none => 0) := rfl

lemma pre_succ_of_some (L : List Token) (n : Nat) (t : Token) (h : L[n]? = some t) :
    pre L (n + 1) = pre L n + delta t := by
  rw [pre_succ, h]

lemma exists_getElem_of_lt (L : List Token) (n : Nat) (h : n < L.length) :
    ∃ t, L[n]? = some t :=
  ⟨L[n], List.getElem?_eq_getElem h⟩

lemma lt_length_of_isOpenAt (L : List Token) (i : Nat) (h : isOpenAt L i = true) :
    i < L.length := by
  by_contra hle
  rw [isOpenAt, List.getElem?_eq_none (by omega)] at h
  simp at h

lemma lt_length_of_isCloseAt (L : List Token) (j : Nat) (h : isCloseAt L j = true) :
    j < L.length := by
  by_contra hle
  rw [isCloseAt, List.getElem?_eq_none (by omega)] at h
  simp at h

lemma isOpenAt_elim (L : List Token) (i : Nat) (h : isOpenAt L i = true) :
    ∃ k, L[i]? = some (Token.LBracket k) := by
  rw [isOpenAt] at h
  cases hg : L[i]? with
  | none => rw [hg] at h; simp at h
  | some t => cases t <;> rw [hg] at h <;> simp at h <;> exact ⟨_, rfl⟩

lemma isCloseAt_elim (L : List Token) (j : Nat) (h : isCloseAt L j = true) :
    ∃ k, L[j]? = some (Token.RBracket k) := by
  rw [isCloseAt] at h
  cases hg : L[j]? with
  | none => rw [hg] at h; simp at h
  | some t => cases t <;> rw [hg] at h <;> simp at h <;> exact ⟨_, rfl⟩

lemma pre_succ_of_isOpenAt (L : List Token) (i : Nat) (h : isOpenAt L i = true) :
    pre L (i + 1) = pre L i + 1 := by
  obtain ⟨k, hk⟩ := isOpenAt_elim L i h
  rw [pre_succ_of_some L i _ hk]; rfl

lemma pre_succ_of_isCloseAt (L : List Token) (j : Nat) (h : isCloseAt L j = true) :
    pre L (j + 1) = pre L j - 1 := by
  obtain ⟨k, hk⟩ := isCloseAt_elim L j h
  rw [pre_succ_of_some L j _ hk]; rfl

lemma isOpenAt_of_delta (L : List Token) (n : Nat) (t : Token)
    (h : L[n]? = some t) (hd : delta t = 1) : isOpenAt L n = true := by
  cases t <;> simp [delta] at hd <;> simp [isOpenAt, h]

lemma isCloseAt_of_delta (L : List Token) (n : Nat) (t : Token)
    (h : L[n]? = some t) (hd : delta t = -1) : isCloseAt L n = true := by
  cases t <;> simp [delta] at hd <;> simp [isCloseAt, h]

/-! ## Characterization of the two resolution scans -/

lemma scanFGo_stop (L : List Token) (i j : Nat)
    (hj : j < L.length) (hzero : pre L (j + 1) = pre L i)
    (hmid : ∀ m < j + 1, i < m → pre L i < pre L m) :
    ∀ fuel p, i < p → p ≤ j + 1 → j + 2 ≤ fuel + p →
      scanFGo L fuel ((pre L p - pre L i).toNat) p = j + 1 := by
  intro fuel
  induction fuel with
  | zero => intro p _ hpj hfuel; omega
  | succ fuel ih =>
    intro p hip hpj hfuel
    by_cases hpj1 : p = j + 1
    · subst hpj1
      have hd : (pre L (j + 1) - pre L i).toNat = 0 := by rw [hzero]; simp
      rw [scanFGo, hd, if_neg (by omega)]
    · have hpj' : p ≤ j := by omega
      have hdpos : pre L i < pre L p := hmid p (by omega) hip
      have hplen : p < L.length := by omega
      obtain ⟨t, ht⟩ := exists_getElem_of_lt L p hplen
      have hpre : pre L (p + 1) = pre L p + delta t := pre_succ_of_some L p t ht
      have hadj : depthAdjF ((pre L p - pre L i).toNat) t
          = (pre L (p + 1) - pre L i).toNat := by
        cases t <;> simp [delta] at hpre <;> simp [depthAdjF] <;> omega
      rw [scanFGo, if_pos ⟨by omega, hplen⟩, ht]
      show scanFGo L fuel (depthAdjF ((pre L p - pre L i).toNat) t) (p + 1) = j + 1
      rw [hadj]
      exact ih (p + 1) (by omega) (by omega) (by omega)

lemma scanF_matched (L : List Token) (i j : Nat) (h : matched L i j) :
    scanF L 1 (i + 1) = j + 1 := by
  obtain ⟨hij, hj, hopen, _, hzero, hmid⟩ := h
  have h1 : pre L (i + 1) = pre L i + 1 := pre_succ_of_isOpenAt L i hopen
  have hd : ((pre L (i + 1) - pre L i).toNat) = 1 := by omega
  have := scanFGo_stop L i j hj hzero hmid (L.length + 1) (i + 1)
    (by omega) (by omega) (by omega)
  rw [hd] at this
  exact this

lemma scanBGo_stop (L : List Token) (i j : Nat)
    (hij : i < j) (hj : j < L.length) (hzero : pre L (j + 1) = pre L i)
    (hmid : ∀ m < j + 1, i < m → pre L i < pre L m) :
    ∀ fuel p, i ≤ p + 1 → p + 1 ≤ j → p + 2 ≤ fuel + i →
      scanBGo L fuel ((pre L (p + 1) - pre L i).toNat) p =
        if i = 0 then 0 else i - 1 := by
  intro fuel
  induction fuel with
  | zero => intro p _ _ hfuel; omega
  | succ fuel ih =>
    intro p hip hpj hfuel
    by_cases hpi : p + 1 = i
    · have hi1 : 1 ≤ i := by omega
      have hd : (pre L (p + 1) - pre L i).toNat = 0 := by rw [hpi]; simp
      rw [scanBGo, hd, if_neg (by omega), if_neg (by omega)]
      omega
    · have hip' : i < p + 1 := by omega
      have hdpos : pre L i < pre L (p + 1) := hmid (p + 1) (by omega) hip'
      by_cases hp0 : p = 0
      · subst hp0
        have hi0 : i = 0 := by omega
        rw [scanBGo, if_neg (by omega), if_pos hi0]
      · have hplen : p < L.length := by omega
        obtain ⟨t, ht⟩ := exists_getElem_of_lt L p hplen
        have hpre : pre L (p + 1) = pre L p + delta t := pre_succ_of_some L p t ht
        have hadj : depthAdjB ((pre L (p + 1) - pre L i).toNat) t
            = (pre L ((p - 1) + 1) - pre L i).toNat := by
          have hp1 : (p - 1) + 1 = p := by omega
          rw [hp1]
          cases t <;> simp [delta] at hpre <;> simp [depthAdjB] <;> omega
        rw [scanBGo, if_pos ⟨by omega, by omega⟩, ht]
        show scanBGo L fuel (depthAdjB ((pre L (p + 1) - pre L i).toNat) t) (p - 1)
          = if i = 0 then 0 else i - 1
        rw [hadj]
        exact ih (p - 1) (by omega) (by omega) (by omega)

lemma scanB_matched (L : List Token) (i j : Nat) (h : matched L i j) :
    scanB L 1 (j - 1) = if i = 0 then 0 else i - 1 := by
  obtain ⟨hij, hj, _, hclose, hzero, hmid⟩ := h
  have hjpre : pre L (j + 1) = pre L j - 1 := pre_succ_of_isCloseAt L j hclose
  have hj1 : (j - 1) + 1 = j := by omega
  have hd : (pre L ((j - 1) + 1) - pre L i).toNat = 1 := by rw [hj1]; omega
  have := scanBGo_stop L i j hij hj hzero hmid (L.length + 1) (j - 1)
    (by omega) (by omega) (by omega)
  rw [hd] at this
  exact this

/-! ## Existence of structural partners in balanced programs -/

lemma matched_of_isOpenAt (L : List Token) (i : Nat)
    (hb : balanced L) (hopen : isOpenAt L i = true) :
    ∃ j, matched L i j := by
  obtain ⟨htot, hnn⟩ := hb
  have hi : i < L.length := lt_length_of_isOpenAt L i hopen
  have hlen : i < L.length ∧ pre L L.length ≤ pre L i := by
    refine ⟨hi, ?_⟩
    rw [htot]
    exact hnn i (by omega)
  have hex : ∃ m, i < m ∧ pre L m ≤ pre L i := ⟨L.length, hlen⟩
  have hMspec := Nat.find_spec hex
  have hMmin : ∀ m < Nat.find hex, ¬(i < m ∧ pre L m ≤ pre L i) :=
    fun m hm => Nat.find_min hex hm
  have hMle : Nat.find hex ≤ L.length := Nat.find_min' hex hlen
  have hopen1 : pre L (i + 1) = pre L i + 1 := pre_succ_of_isOpenAt L i hopen
  have hM2 : i + 2 ≤ Nat.find hex := by
    rcases Nat.lt_or_ge (Nat.find hex) (i + 2) with h | h
    · exfalso
      have : Nat.find hex = i + 1 := by omega
      rw [this] at hMspec
      omega
    · exact h
  refine ⟨Nat.find hex - 1, ?_, ?_, hopen, ?_, ?_, ?_⟩
  · omega
  · omega
  · -- the token before the stop is a close bracket
    have hjlt : Nat.find hex - 1 < L.length := by omega
    obtain ⟨t, ht⟩ := exists_getElem_of_lt L (Nat.find hex - 1) hjlt
    have hstep : pre L ((Nat.find hex - 1) + 1) = pre L (Nat.find hex - 1) + delta t :=
      pre_succ_of_some L _ t ht
    have hj1 : (Nat.find hex - 1) + 1 = Nat.find hex := by omega
    rw [hj1] at hstep
    have hjgt : pre L i < pre L (Nat.find hex - 1) := by
      have := hMmin (Nat.find hex - 1) (by omega)
      push_neg at this
      exact this (by omega)
    have hdelta : delta t = -1 := by
      rcases delta_cases t with hd | hd | hd <;> omega
    exact isCloseAt_of_delta L _ t ht hdelta
  · -- the depth returns exactly at the stop
    have hjlt : Nat.find hex - 1 < L.length := by omega
    obtain ⟨t, ht⟩ := exists_getElem_of_lt L (Nat.find hex - 1) hjlt
    have hstep : pre L ((Nat.find hex - 1) + 1) = pre L (Nat.find hex - 1) + delta t :=
      pre_succ_of_some L _ t ht
    have hj1 : (Nat.find hex - 1) + 1 = Nat.find hex := by omega
    rw [hj1] at hstep
    have hjgt : pre L i < pre L (Nat.find hex - 1) := by
      have := hMmin (Nat.find hex - 1) (by omega)
      push_neg at this
      exact this (by omega)
    have hdge : -1 ≤ delta t := by rcases delta_cases t with hd | hd | hd <;> omega
    rw [hj1]
    omega
  · intro m hm him
    have := hMmin m (by omega)
    push_neg at this
    exact lt_of_not_ge fun hge => absurd (this him) (by omega)

lemma matched_of_isCloseAt (L : List Token) (j : Nat)
    (hb : balanced L) (hclose : isCloseAt L j = true) :
    ∃ i, matched L i j := by
  obtain ⟨htot, hnn⟩ := hb
  have hj : j < L.length := lt_length_of_isCloseAt L j hclose
  have hjpre : pre L (j + 1) = pre L j - 1 := pre_succ_of_isCloseAt L j hclose
  have hnn1 : 0 ≤ pre L (j + 1) := hnn (j + 1) (by omega)
  have hQj : pre L (j - j) ≤ pre L (j + 1) := by
    simp only [Nat.sub_self]
    show pre L 0 ≤ pre L (j + 1)
    simpa [pre] using hnn1
  have hex : ∃ k, pre L (j - k) ≤ pre L (j + 1) := ⟨j, hQj⟩
  have hKspec := Nat.find_spec hex
  have hKmin : ∀ k < Nat.find hex, ¬(pre L (j - k) ≤ pre L (j + 1)) :=
    fun k hk => Nat.find_min hex hk
  have hKle : Nat.find hex ≤ j := Nat.find_min' hex hQj
  have hK1 : 1 ≤ Nat.find hex := by
    rcases Nat.eq_zero_or_pos (Nat.find hex) with h | h
    · exfalso
      rw [h] at hKspec
      simp only [Nat.sub_zero] at hKspec
      omega
    · exact h
  -- i is the stop index
  have hmid : ∀ m, j - Nat.find hex < m → m ≤ j → pre L (j + 1) < pre L m := by
    intro m hm1 hm2
    have hk : j - m < Nat.find hex := by omega
    have := hKmin (j - m) hk
    have hjm : j - (j - m) = m := by omega
    rw [hjm] at this
    omega
  have hij : j - Nat.find hex < j := by omega
  have hilt : j - Nat.find hex < L.length := by omega
  obtain ⟨t, ht⟩ := exists_getElem_of_lt L (j - Nat.find hex) hilt
  have hstep : pre L ((j - Nat.find hex) + 1) = pre L (j - Nat.find hex) + delta t :=
    pre_succ_of_some L _ t ht
  have hi1 : pre L (j + 1) < pre L ((j - Nat.find hex) + 1) :=
    hmid ((j - Nat.find hex) + 1) (by omega) (by omega)
  have hile : pre L (j - Nat.find hex) ≤ pre L (j + 1) := hKspec
  have hdelta : delta t = 1 := by
    rcases delta_cases t with hd | hd | hd <;> omega
  refine ⟨j - Nat.find hex, hij, hj, isOpenAt_of_delta L _ t ht hdelta, hclose, ?_, ?_⟩
  · omega
  · intro m hm him
    have hple : pre L (j - Nat.find hex) = pre L (j + 1) := by omega
    rw [hple]
    exact hmid m him (by omega)

lemma isCloseAt_zero_eq_false (L : List Token) (hb : balanced L) :
    isCloseAt L 0 = false := by
  by_contra h
  have h' : isCloseAt L 0 = true := by
    cases hc : isCloseAt L 0
    · exact absurd hc h
    · rfl
  have h0 : 0 < L.length := lt_length_of_isCloseAt L 0 h'
  have hstep : pre L 1 = pre L 0 - 1 := pre_succ_of_isCloseAt L 0 h'
  have hnn := hb.2 1 (by omega)
  have h00 : pre L 0 = 0 := rfl
  omega

/-! ## Resolution on matched brackets -/

lemma resolveTok_open (L : List Token) (i j : Nat) (t : Token)
    (hm : matched L i j) (ht : L[i]? = some t) :
    resolveTok L i t = some (Token.LBracket (j + 1)) := by
  obtain ⟨k, hk⟩ := isOpenAt_elim L i hm.2.2.1
  rw [ht] at hk
  cases hk
  have hscan : scanF L 1 (i + 1) = j + 1 := scanF_matched L i j hm
  have hclose : isCloseAt L ((j + 1) - 1) = true := by
    simpa using hm.2.2.2.1
  simp only [resolveTok, hscan, hclose, if_pos]

lemma resolveTok_close (L : List Token) (i j : Nat) (t : Token)
    (hm : matched L i j) (ht : L[j]? = some t) :
    resolveTok L j t =
      some (Token.RBracket
        (if i = 0 then (if isOpenAt L 1 then 0 else 1) else i - 1)) := by
  obtain ⟨k, hk⟩ := isCloseAt_elim L j hm.2.2.2.1
  rw [ht] at hk
  cases hk
  have hj0 : j ≠ 0 := by have := hm.1; omega
  have hscan : scanB L 1 (j - 1) = if i = 0 then 0 else i - 1 := scanB_matched L i j hm
  by_cases hi0 : i = 0
  · subst hi0
    rw [if_pos rfl] at hscan
    by_cases h1 : isOpenAt L 1 = true
    · simp only [resolveTok, if_neg hj0, hscan, if_pos rfl]
      simp [h1]
    · have h1' : isOpenAt L (0 + 1) = false := by
        cases hc : isOpenAt L 1
        · simpa using hc
        · exact absurd hc h1
      simp only [resolveTok, if_neg hj0, hscan]
      simp [h1']
  · rw [if_neg hi0] at hscan
    have hopen : isOpenAt L ((i - 1) + 1) = true := by
      have : (i - 1) + 1 = i := by omega
      rw [this]
      exact hm.2.2.1
    simp only [resolveTok, if_neg hj0, hscan]
    simp [hopen, if_neg hi0]

lemma resolveTok_plain (L : List Token) (i : Nat) (t : Token)
    (ht : delta t = 0) : resolveTok L i t = some t := by
  cases t <;> simp [delta] at ht <;> simp [resolveTok]

/-! ## The resolution pass: success and lookup -/

lemma resolveGo_isSome (L : List Token) :
    ∀ (X : List Token) (i : Nat),
      (∀ k t, X[k]? = some t → (resolveTok L (i + k) t).isSome = true) →
      (resolveGo L i X).isSome = true := by
  intro X
  induction X with
  | nil => intro i _; simp [resolveGo]
  | cons t rest ih =>
    intro i h
    have h0 : (resolveTok L i t).isSome = true := by
      have := h 0 t (by simp)
      simpa using this
    obtain ⟨r, hr⟩ := Option.isSome_iff_exists.mp h0
    have hrest : (resolveGo L (i + 1) rest).isSome = true := by
      refine ih (i + 1) ?_
      intro k u hk
      have h' := h (k + 1) u (by simpa using hk)
      rwa [show i + (k + 1) = i + 1 + k by omega] at h'
    obtain ⟨rs, hrs⟩ := Option.isSome_iff_exists.mp hrest
    simp [resolveGo, hr, hrs]

lemma resolveGo_lookup (L : List Token) :
    ∀ (X R : List Token) (i : Nat), resolveGo L i X = some R →
      R.length = X.length ∧
        ∀ k t, X[k]? = some t → R[k]? = resolveTok L (i + k) t := by
  intro X
  induction X with
  | nil =>
    intro R i h
    simp only [resolveGo] at h
    cases h
    simp
  | cons t rest ih =>
    intro R i h
    simp only [resolveGo] at h
    cases hr : resolveTok L i t with
    | none => rw [hr] at h; exact absurd h (by simp)
    | some r =>
      rw [hr] at h
      cases hrs : resolveGo L (i + 1) rest with
      | none => rw [hrs] at h; exact absurd h (by simp)
      | some rs =>
        rw [hrs] at h
        cases h
        obtain ⟨hlen, hlook⟩ := ih rs (i + 1) hrs
        constructor
        · simp [hlen]
        · intro k u hk
          match k with
          | 0 =>
            simp only [List.getElem?_cons_zero] at hk
            cases hk
            simpa using hr.symm
          | k + 1 =>
            simp only [List.getElem?_cons_succ] at hk ⊢
            rw [hlook k u hk]
            rw [show i + (k + 1) = i + 1 + k by omega]

/-- Main resolution theorem: on a balanced program resolution succeeds,
and every matched pair (i, j) gets the targets the code computes:
j + 1 on the open, and on the close i - 1 when i is positive, else the
index-0 special values. -/
lemma resolve_matched_targets (L : List Token) (hb : balanced L) :
    (∃ R, resolve L = some R) ∧
    ∀ R i j, resolve L = some R → matched L i j →
      R[i]? = some (Token.LBracket (j + 1)) ∧
      R[j]? = some (Token.RBracket
        (if i = 0 then (if isOpenAt L 1 then 0 else 1) else i - 1)) := by
  constructor
  · have hsome : (resolveGo L 0 L).isSome = true := by
      refine resolveGo_isSome L L 0 ?_
      intro k t hk
      rw [show (0 : Nat) + k = k by omega]
      cases t with
      | LBracket tgt =>
        have hopen : isOpenAt L k = true := by simp [isOpenAt, hk]
        obtain ⟨j, hj⟩ := matched_of_isOpenAt L k hb hopen
        rw [resolveTok_open L k j _ hj hk]
        rfl
      | RBracket tgt =>
        have hclose : isCloseAt L k = true := by simp [isCloseAt, hk]
        obtain ⟨i, hi⟩ := matched_of_isCloseAt L k hb hclose
        rw [resolveTok_close L i k _ hi hk]
        rfl
      | RAngle => rw [resolveTok_plain L k Token.RAngle rfl]; rfl
      | LAngle => rw [resolveTok_plain L k Token.LAngle rfl]; rfl
      | Plus => rw [resolveTok_plain L k Token.Plus rfl]; rfl
      | Minus => rw [resolveTok_plain L k Token.Minus rfl]; rfl
      | Period => rw [resolveTok_plain L k Token.Period rfl]; rfl
      | Comma => rw [resolveTok_plain L k Token.Comma rfl]; rfl
    obtain ⟨R, hR⟩ := Option.isSome_iff_exists.mp hsome
    exact ⟨R, hR⟩
  · intro R i j hR hm
    obtain ⟨_, hlook⟩ := resolveGo_lookup L L R 0 hR
    constructor
    · obtain ⟨k, hk⟩ := isOpenAt_elim L i hm.2.2.1
      rw [hlook i _ hk, show (0 : Nat) + i = i by omega]
      exact resolveTok_open L i j _ hm hk
    · obtain ⟨k, hk⟩ := isCloseAt_elim L j hm.2.2.2.1
      rw [hlook j _ hk, show (0 : Nat) + j = j by omega]
      exact resolveTok_close L i j _ hm hk

/-! ## One-step lemmas for the execution engine -/

lemma step_halt (P : List Token) (s : MachineState)
    (hi : P[s.instr_pointer]? = none) : step P s = StepRes.halted s := by
  simp [step, hi]

lemma step_RAngle (P : List Token) (s : MachineState)
    (hi : P[s.instr_pointer]? = some Token.RAngle) :
    step P s = StepRes.running
      { s with data := growTape s.data s.data_pointer,
               data_pointer := s.data_pointer + 1,
               instr_pointer := s.instr_pointer + 1 } := by
  simp [step, hi]

lemma step_LAngle_zero (P : List Token) (s : MachineState)
    (hi : P[s.instr_pointer]? = some Token.LAngle)
    (hdp : s.data_pointer = 0) : step P s = StepRes.fatal := by
  simp [step, hi, hdp]

lemma step_LAngle_pos (P : List Token) (s : MachineState)
    (hi : P[s.instr_pointer]? = some Token.LAngle)
    (hdp : s.data_pointer ≠ 0) :
    step P s = StepRes.running
      { s with data := growTape s.data s.data_pointer,
               data_pointer := s.data_pointer - 1,
               instr_pointer := s.instr_pointer + 1 } := by
  simp [step, hi, hdp]

lemma step_Plus (P : List Token) (s : MachineState) (v : Nat)
    (hi : P[s.instr_pointer]? = some Token.Plus)
    (hv : (growTape s.data s.data_pointer)[s.data_pointer]? = some v) :
    step P s = StepRes.running
      { s with data := (growTape s.data s.data_pointer).set s.data_pointer
                 (wrapping_add1 v),
               instr_pointer := s.instr_pointer + 1 } := by
  simp [step, hi, hv]

lemma step_Minus (P : List Token) (s : MachineState) (v : Nat)
    (hi : P[s.instr_pointer]? = some Token.Minus)
    (hv : (growTape s.data s.data_pointer)[s.data_pointer]? = some v) :
    step P s = StepRes.running
      { s with data := (growTape s.data s.data_pointer).set s.data_pointer
                 (wrapping_sub1 v),
               instr_pointer := s.instr_pointer + 1 } := by
  simp [step, hi, hv]

lemma step_Period (P : List Token) (s : MachineState) (v : Nat)
    (hi : P[s.instr_pointer]? = some Token.Period)
    (hv : (growTape s.data s.data_pointer)[s.data_pointer]? = some v) :
    step P s = StepRes.running
      { s with data := growTape s.data s.data_pointer,
               stdout := s.stdout ++ utf8Bytes v,
               instr_pointer := s.instr_pointer + 1 } := by
  simp [step, hi, hv]

lemma step_Comma (P : List Token) (s : MachineState) (b : Nat) (rest : List Nat)
    (v : Nat) (hi : P[s.instr_pointer]? = some Token.Comma)
    (hin : s.stdin = b :: rest)
    (hv : (growTape s.data s.data_pointer)[s.data_pointer]? = some v) :
    step P s = StepRes.running
      { s with data := (growTape s.data s.data_pointer).set s.data_pointer (b % 256),
               stdin := rest, instr_pointer := s.instr_pointer + 1 } := by
  simp [step, hi, hin, hv]

lemma step_LBracket (P : List Token) (s : MachineState) (t v : Nat)
    (hi : P[s.instr_pointer]? = some (Token.LBracket t))
    (hv : (growTape s.data s.data_pointer)[s.data_pointer]? = some v) :
    step P s = StepRes.running
      { s with data := growTape s.data s.data_pointer,
               instr_pointer := (if v = 0 then t else s.instr_pointer) + 1 } := by
  simp [step, hi, hv]

lemma step_RBracket (P : List Token) (s : MachineState) (t v : Nat)
    (hi : P[s.instr_pointer]? = some (Token.RBracket t))
    (hv : (growTape s.data s.data_pointer)[s.data_pointer]? = some v) :
    step P s = StepRes.running
      { s with data := growTape s.data s.data_pointer,
               instr_pointer := (if v ≠ 0 then t else s.instr_pointer) + 1 } := by
  simp [step, hi, hv]

/-- The backward scan loop never examines the token at index 0: its
guard requires p > 0 before each access, so its result does not depend
on the head of the list. -/
lemma scanBGo_head_irrel (a b : Token) (M : List Token) :
    ∀ fuel d p, scanBGo (a :: M) fuel d p = scanBGo (b :: M) fuel d p := by
  intro fuel
  induction fuel with
  | zero => intro d p; rfl
  | succ fuel ih =>
    intro d p
    by_cases h : 0 < d ∧ 0 < p
    · obtain ⟨p', rfl⟩ : ∃ p', p = p' + 1 := ⟨p - 1, by omega⟩
      simp only [scanBGo, if_pos h, List.getElem?_cons_succ]
      exact ih _ (p' + 1 - 1)
    · simp only [scanBGo, if_neg h]

/-! ## Claim C1 -/

/-- Claim C1 counterexample: in the balanced program consisting of
LoopOpen immediately followed by LoopClose, resolution stores target 2
on the LoopOpen whose matching LoopClose sits at index 1, and target 1
on the LoopClose whose matching LoopOpen sits at index 0: neither
stored target equals the index of the structurally matching partner. -/
theorem resolve_target_not_match_index :
    balanced [Token.LBracket 0, Token.RBracket 0] ∧
    matched [Token.LBracket 0, Token.RBracket 0] 0 1 ∧
    resolve [Token.LBracket 0, Token.RBracket 0] =
      some [Token.LBracket 2, Token.RBracket 1] ∧
    Token.LBracket 2 ≠ Token.LBracket 1 ∧ Token.RBracket 1 ≠ Token.RBracket 0 := by
  decide

/-- Claim C1 (amended): for every balanced program, resolution succeeds
and for every structurally matched pair (i, j) the LoopOpen at i stores
target j + 1 (one past its matching LoopClose), while the LoopClose at
j stores target i - 1 when i is positive; when its matching LoopOpen is
at index 0 it stores 0 if the instruction at index 1 is a LoopOpen and
the fallback 1 otherwise. -/
theorem resolve_targets_offset (L : List Token) (hb : balanced L) :
    (∃ R, resolve L = some R) ∧
    ∀ R i j, resolve L = some R → matched L i j →
      R[i]? = some (Token.LBracket (j + 1)) ∧
      R[j]? = some (Token.RBracket
        (if i = 0 then (if isOpenAt L 1 then 0 else 1) else i - 1)) :=
  resolve_matched_targets L hb

/-- Witness for C1 at the concrete balanced program "+[]". -/
theorem resolve_targets_offset_witness :
    [Token.Plus, Token.LBracket 3, Token.RBracket 0][1]? =
      some (Token.LBracket 3) ∧
    [Token.Plus, Token.LBracket 3, Token.RBracket 0][2]? =
      some (Token.RBracket 0) :=
  (resolve_targets_offset [Token.Plus, Token.LBracket 0, Token.RBracket 0]
    (by decide)).2 [Token.Plus, Token.LBracket 3, Token.RBracket 0] 1 2
    (by decide) (by decide)

/-! ## Claim C4 -/

/-- Claim C4 counterexample: in the balanced program of two nested
bracket pairs, the LoopClose at index 3 has its structurally matching
LoopOpen at index 0, yet resolution assigns it target 0, not the
claimed fallback target 1 (because the instruction at index 1 is itself
a LoopOpen). -/
theorem fallback_target_zero_example :
    balanced (scan (String.toList "[[]]")) ∧
    matched (scan (String.toList "[[]]")) 0 3 ∧
    tokenize (String.toList "[[]]") =
      some [Token.LBracket 4, Token.LBracket 3, Token.RBracket 0, Token.RBracket 0] ∧
    Token.RBracket 0 ≠ Token.RBracket 1 := by
  decide

/-- Claim C4 (amended): when a LoopClose's structurally matching
LoopOpen is at index 0, the backward scan never examines index 0 (its
result does not depend on the token there), and the LoopClose is
assigned target 0 when the instruction at index 1 is a LoopOpen, else
the fallback target 1; executing that LoopClose with a nonzero current
cell therefore continues at instruction index 1 or 2 respectively,
never at the matching LoopOpen at index 0. -/
theorem close_match_at_zero_behavior (L : List Token) (j : Nat)
    (hb : balanced L) (hm : matched L 0 j) :
    (∀ a b M fuel d p, scanBGo (a :: M) fuel d p = scanBGo (b :: M) fuel d p) ∧
    ∀ R, resolve L = some R →
      R[j]? = some (Token.RBracket (if isOpenAt L 1 then 0 else 1)) ∧
      ∀ s v, s.instr_pointer = j →
        (growTape s.data s.data_pointer)[s.data_pointer]? = some v → v ≠ 0 →
        step R s = StepRes.running
          { s with data := growTape s.data s.data_pointer,
                   instr_pointer := (if isOpenAt L 1 then 0 else 1) + 1 } := by
  refine ⟨fun a b M => scanBGo_head_irrel a b M, ?_⟩
  intro R hR
  have htgt := (resolve_matched_targets L hb).2 R 0 j hR hm
  have htgt' : R[j]? = some (Token.RBracket (if isOpenAt L 1 then 0 else 1)) := by
    simpa using htgt.2
  refine ⟨htgt', ?_⟩
  intro s v hip hv hv0
  have hi : R[s.instr_pointer]? = some (Token.RBracket (if isOpenAt L 1 then 0 else 1)) := by
    rw [hip]; exact htgt'
  rw [step_RBracket R s _ v hi hv, if_pos hv0]

/-- Witness for C4 at the concrete program "[]" (matching LoopOpen at
index 0, instruction at index 1 not a LoopOpen, fallback target 1,
nonzero cell continues at index 2). -/
theorem close_match_at_zero_behavior_witness :
    [Token.LBracket 2, Token.RBracket 1][1]? = some (Token.RBracket 1) ∧
    step [Token.LBracket 2, Token.RBracket 1]
        { data := [7], data_pointer := 0, instr_pointer := 1, stdin := [], stdout := [] } =
      StepRes.running
        { data := [7], data_pointer := 0, instr_pointer := 2, stdin := [], stdout := [] } := by
  have h := (close_match_at_zero_behavior [Token.LBracket 0, Token.RBracket 0] 1
    (by decide) (by decide)).2 [Token.LBracket 2, Token.RBracket 1] (by decide)
  refine ⟨by simpa using h.1, ?_⟩
  have h2 := h.2
    { data := [7], data_pointer := 0, instr_pointer := 1, stdin := [], stdout := [] }
    7 rfl (by decide) (by decide)
  simpa using h2

/-! ## Claim C2 -/

/-- Claim C2 at a failing input: in "+-[-]+." the LoopOpen at index 2
executes with current cell 0 and its matching LoopClose at index 4;
the stored target is 5, so after the unconditional increment execution
resumes at index 6, skipping the Plus at index 5 (the instruction
immediately after the matched close), and the program outputs byte 0
instead of the byte 1 the claimed semantics would produce. -/
theorem loopOpen_skip_run :
    tokenize (String.toList "+-[-]+.") =
      some [Token.Plus, Token.Minus, Token.LBracket 5, Token.Minus,
            Token.RBracket 1, Token.Plus, Token.Period] ∧
    matched (scan (String.toList "+-[-]+.")) 2 4 ∧
    runOut (String.toList "+-[-]+.") [] 20 = some [0] ∧
    ([0] : List Nat) ≠ [1] := by
  decide

/-! ## Claim C3 -/

/-- Claim C3 at a failing input: "+]" contains a LoopClose with no
structural partner (the scanned program is unbalanced and no index is
matched with the close at index 1), yet resolution succeeds, silently
assigning the close the fallback target 1, and the resolved program
then executes to a normal halt. -/
theorem unmatched_close_fallback_executes :
    ¬ balanced (scan (String.toList "+]")) ∧
    (∀ i < 2, ¬ matched (scan (String.toList "+]")) i 1) ∧
    tokenize (String.toList "+]") = some [Token.Plus, Token.RBracket 1] ∧
    run [Token.Plus, Token.RBracket 1] [] 5 =
      StepRes.halted { data := [1], data_pointer := 0, instr_pointer := 2,
                       stdin := [], stdout := [] } := by
  decide

/-! ## Claim C6 -/

/-- Claim C6 counterexample: the program "-." reaches Output with the
current cell 255 and writes the two bytes 195, 191 (the UTF-8 encoding
of code point 255), not the single raw byte 255. -/
theorem output_two_bytes_example :
    tokenize (String.toList "-.") = some [Token.Minus, Token.Period] ∧
    runOut (String.toList "-.") [] 10 = some [195, 191] ∧
    ([195, 191] : List Nat) ≠ [255] := by
  decide

/-- Claim C6 (amended): an executed Output instruction appends to
stdout the UTF-8 encoding of the current cell's value v: exactly the
single raw byte v when v < 128, and for 128 ≤ v the two bytes
192 + v / 64 and 128 + v mod 64 — never the single raw byte v. -/
theorem output_utf8_bytes (P : List Token) (s : MachineState) (v : Nat)
    (hi : P[s.instr_pointer]? = some Token.Period)
    (hv : (growTape s.data s.data_pointer)[s.data_pointer]? = some v) :
    step P s = StepRes.running
      { s with data := growTape s.data s.data_pointer,
               stdout := s.stdout ++ utf8Bytes v,
               instr_pointer := s.instr_pointer + 1 } ∧
    (v < 128 → utf8Bytes v = [v]) ∧
    (128 ≤ v → utf8Bytes v = [192 + v / 64, 128 + v % 64] ∧ utf8Bytes v ≠ [v]) := by
  refine ⟨step_Period P s v hi hv, ?_, ?_⟩
  · intro h
    simp [utf8Bytes, h]
  · intro h
    have he : utf8Bytes v = [192 + v / 64, 128 + v % 64] := by
      rw [utf8Bytes, if_neg (by omega)]
    refine ⟨he, ?_⟩
    intro hc
    rw [he] at hc
    exact absurd (congrArg List.length hc) (by simp)

/-- Witness for C6: Output with the cell at 200 emits the two bytes
195 and 136. -/
theorem output_utf8_bytes_witness :
    step [Token.Period]
        { data := [200], data_pointer := 0, instr_pointer := 0,
          stdin := [], stdout := [] } =
      StepRes.running
        { data := [200], data_pointer := 0, instr_pointer := 1,
          stdin := [], stdout := [195, 136] } ∧
    utf8Bytes 200 ≠ [200] := by
  have h := output_utf8_bytes [Token.Period]
    { data := [200], data_pointer := 0, instr_pointer := 0, stdin := [], stdout := [] }
    200 (by decide) (by decide)
  exact ⟨by simpa using h.1, (h.2.2 (by decide)).2⟩

/-! ## Claim C7 -/

/-- Claim C7: executing MoveLeft (LAngle) with the data pointer at 0 is
a fatal error, whatever the program position; with a positive data
pointer it moves the pointer down by exactly one (the new pointer plus
one equals the old pointer, so no wraparound occurs). -/
theorem moveLeft_zero_fatal (P : List Token) (s : MachineState)
    (hi : P[s.instr_pointer]? = some Token.LAngle) :
    (s.data_pointer = 0 → step P s = StepRes.fatal) ∧
    (0 < s.data_pointer →
      step P s = StepRes.running
        { s with data := growTape s.data s.data_pointer,
                 data_pointer := s.data_pointer - 1,
                 instr_pointer := s.instr_pointer + 1 } ∧
      (s.data_pointer - 1) + 1 = s.data_pointer) := by
  constructor
  · intro h
    exact step_LAngle_zero P s hi h
  · intro h
    exact ⟨step_LAngle_pos P s hi (by omega), by omega⟩

/-- Witness for C7: at the start of the program "<" the data pointer is
0 and the step is fatal; from data pointer 1 it moves to 0. -/
theorem moveLeft_zero_fatal_witness :
    step [Token.LAngle] (initState []) = StepRes.fatal ∧
    step [Token.LAngle]
        { data := [0, 0], data_pointer := 1, instr_pointer := 0,
          stdin := [], stdout := [] } =
      StepRes.running
        { data := [0, 0], data_pointer := 0, instr_pointer := 1,
          stdin := [], stdout := [] } := by
  constructor
  · exact (moveLeft_zero_fatal [Token.LAngle] (initState []) (by decide)).1 rfl
  · have h := (moveLeft_zero_fatal [Token.LAngle]
      { data := [0, 0], data_pointer := 1, instr_pointer := 0, stdin := [], stdout := [] }
      (by decide)).2 (by decide)
    simpa using h.1

/-! ## Claim C8 -/

/-- Claim C8: Increment and Decrement rewrite only the current cell,
replacing its value v by (v + 1) mod 256 and (v + 255) mod 256
respectively; in particular 255 increments to 0 and 0 decrements to
255, and iterating n increments (or decrements) on a cell value below
256 yields (v + n) mod 256 (or (v + 255 n) mod 256), so every sequence
of Increments and Decrements acts modulo 256. -/
theorem inc_dec_mod256 :
    (∀ (P : List Token) (s : MachineState) (v : Nat),
      P[s.instr_pointer]? = some Token.Plus →
      (growTape s.data s.data_pointer)[s.data_pointer]? = some v →
      step P s = StepRes.running
        { s with data := (growTape s.data s.data_pointer).set s.data_pointer
                   ((v + 1) % 256),
                 instr_pointer := s.instr_pointer + 1 }) ∧
    (∀ (P : List Token) (s : MachineState) (v : Nat),
      P[s.instr_pointer]? = some Token.Minus →
      (growTape s.data s.data_pointer)[s.data_pointer]? = some v →
      step P s = StepRes.running
        { s with data := (growTape s.data s.data_pointer).set s.data_pointer
                   ((v + 255) % 256),
                 instr_pointer := s.instr_pointer + 1 }) ∧
    wrapping_add1 255 = 0 ∧ wrapping_sub1 0 = 255 ∧
    (∀ (l : List Nat) (dp x k : Nat), k ≠ dp → (l.set dp x)[k]? = l[k]?) ∧
    (∀ v n, v < 256 → wrapping_add1^[n] v = (v + n) % 256) ∧
    (∀ v n, v < 256 → wrapping_sub1^[n] v = (v + 255 * n) % 256) := by
  refine ⟨fun P s v hi hv => step_Plus P s v hi hv,
          fun P s v hi hv => step_Minus P s v hi hv,
          rfl, rfl, ?_, ?_, ?_⟩
  · intro l dp x k hk
    exact List.getElem?_set_ne (by omega)
  · intro v n hv
    induction n with
    | zero => simpa using (Nat.mod_eq_of_lt hv).symm
    | succ n ih =>
      rw [Function.iterate_succ_apply', ih, wrapping_add1, Nat.mod_add_mod,
        Nat.add_assoc]
  · intro v n hv
    induction n with
    | zero => simpa using (Nat.mod_eq_of_lt hv).symm
    | succ n ih =>
      rw [Function.iterate_succ_apply', ih, wrapping_sub1, Nat.mod_add_mod,
        show v + 255 * n + 255 = v + 255 * (n + 1) by ring]

/-- Witness for C8: one Increment on a fresh cell writes 1; 255
increments to 0 after 256 iterated increments from cell value 255. -/
theorem inc_dec_mod256_witness :
    step [Token.Plus] (initState []) =
      StepRes.running
        { data := [1], data_pointer := 0, instr_pointer := 1,
          stdin := [], stdout := [] } ∧
    wrapping_add1^[2] 255 = 1 := by
  have h := inc_dec_mod256
  constructor
  · have h1 := h.1 [Token.Plus] (initState []) 0 (by decide) (by decide)
    simpa using h1
  · have h2 := h.2.2.2.2.2.1 255 2 (by omega)
    simpa using h2

/-! ## Claim C9 -/

/-- The loop invariant of run_program: the data pointer never moves
more than one past the end of the tape, so the single zero push at the
top of each iteration always restores it to a valid index. -/
def Inv (s : MachineState) : Prop :=
  s.data_pointer ≤ s.data.length

lemma growTape_length (data : List Nat) (dp : Nat) :
    (growTape data dp).length =
      if data.length ≤ dp then data.length + 1 else data.length := by
  by_cases h : data.length ≤ dp <;> simp [growTape, h]

lemma growTape_lt (data : List Nat) (dp : Nat) (h : dp ≤ data.length) :
    dp < (growTape data dp).length := by
  rw [growTape_length]
  by_cases h' : data.length ≤ dp <;> simp [h'] <;> omega

lemma growTape_length_ge (data : List Nat) (dp : Nat) :
    data.length ≤ (growTape data dp).length := by
  rw [growTape_length]
  by_cases h' : data.length ≤ dp <;> simp [h']

lemma step_preserves (P : List Token) (s s' : MachineState) (hInv : Inv s)
    (h : step P s = StepRes.running s') :
    Inv s' ∧ s.data.length ≤ s'.data.length := by
  cases hi : P[s.instr_pointer]? with
  | none => rw [step_halt P s hi] at h; exact absurd h (by simp)
  | some tok =>
    have hdp : s.data_pointer < (growTape s.data s.data_pointer).length :=
      growTape_lt _ _ hInv
    have hgl : s.data.length ≤ (growTape s.data s.data_pointer).length :=
      growTape_length_ge _ _
    obtain ⟨v, hv⟩ : ∃ v, (growTape s.data s.data_pointer)[s.data_pointer]? = some v :=
      ⟨_, List.getElem?_eq_getElem hdp⟩
    cases tok with
    | RAngle =>
      rw [step_RAngle P s hi] at h
      cases h
      exact ⟨by simpa [Inv] using hdp, hgl⟩
    | LAngle =>
      by_cases hdp0 : s.data_pointer = 0
      · rw [step_LAngle_zero P s hi hdp0] at h; exact absurd h (by simp)
      · rw [step_LAngle_pos P s hi hdp0] at h
        cases h
        refine ⟨?_, hgl⟩
        show s.data_pointer - 1 ≤ (growTape s.data s.data_pointer).length
        omega
    | Plus =>
      rw [step_Plus P s v hi hv] at h
      cases h
      refine ⟨?_, by simpa using hgl⟩
      show s.data_pointer ≤ ((growTape s.data s.data_pointer).set _ _).length
      simpa using Nat.le_of_lt hdp
    | Minus =>
      rw [step_Minus P s v hi hv] at h
      cases h
      refine ⟨?_, by simpa using hgl⟩
      show s.data_pointer ≤ ((growTape s.data s.data_pointer).set _ _).length
      simpa using Nat.le_of_lt hdp
    | Period =>
      rw [step_Period P s v hi hv] at h
      cases h
      exact ⟨Nat.le_of_lt hdp, hgl⟩
    | Comma =>
      cases hin : s.stdin with
      | nil =>
        rw [show step P s = StepRes.fatal by simp [step, hi, hin]] at h
        exact absurd h (by simp)
      | cons b rest =>
        rw [step_Comma P s b rest v hi hin hv] at h
        cases h
        refine ⟨?_, by simpa using hgl⟩
        show s.data_pointer ≤ ((growTape s.data s.data_pointer).set _ _).length
        simpa using Nat.le_of_lt hdp
    | LBracket t =>
      rw [step_LBracket P s t v hi hv] at h
      cases h
      exact ⟨Nat.le_of_lt hdp, hgl⟩
    | RBracket t =>
      rw [step_RBracket P s t v hi hv] at h
      cases h
      exact ⟨Nat.le_of_lt hdp, hgl⟩

lemma stepIter_halted (P : List Token) (n : Nat) (s : MachineState) :
    stepIter P n (StepRes.halted s) = StepRes.halted s := by
  cases n <;> rfl

lemma stepIter_fatal (P : List Token) (n : Nat) :
    stepIter P n StepRes.fatal = StepRes.fatal := by
  cases n <;> rfl

lemma stepIter_inv (P : List Token) :
    ∀ (n : Nat) (s s' : MachineState), Inv s →
      stepIter P n (StepRes.running s) = StepRes.running s' → Inv s' := by
  intro n
  induction n with
  | zero =>
    intro s s' hInv h
    cases h
    exact hInv
  | succ n ih =>
    intro s s' hInv h
    rw [stepIter] at h
    cases hst : step P s with
    | running s1 =>
      rw [hst] at h
      exact ih s1 s' (step_preserves P s s1 hInv hst).1 h
    | halted s1 =>
      rw [hst, stepIter_halted] at h
      exact absurd h (by simp)
    | fatal =>
      rw [hst, stepIter_fatal] at h
      exact absurd h (by simp)

/-- Claim C9: the tape starts empty; the growth performed at the top of
each iteration appends exactly one zero cell precisely when the data
pointer is not yet a valid index and leaves the tape alone otherwise;
under the loop invariant the data pointer indexes an existing cell of
the grown tape at every dispatch; every running step preserves the
invariant and never shrinks the tape; and every state reachable from
the initial state satisfies the invariant. -/
theorem tape_growth_invariant :
    (∀ stdin, (initState stdin).data = [] ∧ (initState stdin).data_pointer = 0) ∧
    (∀ (data : List Nat) (dp : Nat),
      (data.length ≤ dp → growTape data dp = data ++ [0]) ∧
      (dp < data.length → growTape data dp = data)) ∧
    (∀ s : MachineState, Inv s →
      s.data_pointer < (growTape s.data s.data_pointer).length) ∧
    (∀ (P : List Token) (s s' : MachineState), Inv s →
      step P s = StepRes.running s' → Inv s' ∧ s.data.length ≤ s'.data.length) ∧
    (∀ (P : List Token) (stdin : List Nat) (n : Nat) (s' : MachineState),
      run P stdin n = StepRes.running s' → Inv s') := by
  refine ⟨fun stdin => ⟨rfl, rfl⟩, ?_, ?_, ?_, ?_⟩
  · intro data dp
    constructor
    · intro h; simp [growTape, h]
    · intro h; simp [growTape, Nat.not_le.mpr h]
  · intro s hInv
    exact growTape_lt _ _ hInv
  · intro P s s' hInv h
    exact step_preserves P s s' hInv h
  · intro P stdin n s' h
    exact stepIter_inv P n (initState stdin) s' (by simp [Inv, initState]) h

/-- Witness for C9: after one step of the program "+" the reached state
satisfies the invariant. -/
theorem tape_growth_invariant_witness :
    Inv { data := [1], data_pointer := 0, instr_pointer := 1,
          stdin := [], stdout := [] } :=
  tape_growth_invariant.2.2.2.2 [Token.Plus] [] 1
    { data := [1], data_pointer := 0, instr_pointer := 1, stdin := [], stdout := [] }
    (by decide)

/-! ## Claim C5 -/

lemma scanGo_eq_filterMap_stripGo :
    ∀ (cs : List Char) (st : TokenizerState),
      scanGo st cs = (stripGo st cs).filterMap char_to_token := by
  intro cs
  induction cs with
  | nil => intro st; cases st <;> rfl
  | cons c cs ih =>
    intro st
    cases st with
    | LeadingWhitespace =>
      cases h : char_to_token c with
      | some t => simp [scanGo, stripGo, h, List.filterMap_cons, ih]
      | none => simp [scanGo, stripGo, h, List.filterMap_cons, ih]
    | Token =>
      cases h : char_to_token c with
      | some t => simp [scanGo, stripGo, h, List.filterMap_cons, ih]
      | none => simp [scanGo, stripGo, h, List.filterMap_cons, ih]
    | TrailingWhitespace =>
      by_cases h : c = '\n' ∨ c = '\r'
      · simp [scanGo, stripGo, h, ih]
      · simp [scanGo, stripGo, h, ih]

/-- Claim C5 counterexample: in the input "+ +" the second plus sits in
a trailing-comment region (after a space on the same line), so the
lexer drops it: the scan yields one instruction while direct filtering
yields two, hence the lexer is not equivalent to filtering. -/
theorem scan_ne_filter_example :
    scan (String.toList "+ +") = [Token.Plus] ∧
    List.filterMap char_to_token (String.toList "+ +") = [Token.Plus, Token.Plus] ∧
    ([Token.Plus] : List Token) ≠ [Token.Plus, Token.Plus] := by
  decide

/-- Claim C5 (amended): the lexer emits one instruction per recognized
character in source order except those inside trailing-comment regions
(from the first unrecognized character after a recognized one up to the
next newline or carriage return), which are dropped even when
recognized: the lexer output equals direct filtering applied to the
input with trailing-comment regions removed, not to the raw input. -/
theorem scan_eq_filter_stripComments (cs : List Char) :
    scan cs = (stripComments cs).filterMap char_to_token :=
  scanGo_eq_filterMap_stripGo cs TokenizerState.LeadingWhitespace

/-- Witness for C5 at a concrete two-line input with a trailing
comment. -/
theorem scan_eq_filter_stripComments_witness :
    scan (String.toList "+ ok\n\n-") =
      (stripComments (String.toList "+ ok\n\n-")).filterMap char_to_token :=
  scan_eq_filter_stripComments (String.toList "+ ok\n\n-")

/-! ## Claim C10: lexing the rendering reproduces the Program -/

lemma char_to_token_renderTok (t : Token) :
    char_to_token (renderTok t) = some (strip t) := by
  cases t <;> rfl

lemma strip_idem (t : Token) : strip (strip t) = strip t := by
  cases t <;> rfl

lemma map_strip_idem (l : List Token) :
    (l.map strip).map strip = l.map strip := by
  induction l with
  | nil => rfl
  | cons t l ih => simp [ih, strip_idem t]

lemma scanGo_render :
    ∀ (ts : List Token) (st : TokenizerState),
      st ≠ TokenizerState.TrailingWhitespace →
      scanGo st (ts.map renderTok) = ts.map strip := by
  intro ts
  induction ts with
  | nil => intro st _; cases st <;> rfl
  | cons t ts ih =>
    intro st hst
    cases st with
    | LeadingWhitespace =>
      simp [scanGo, char_to_token_renderTok, ih TokenizerState.Token (by decide)]
    | Token =>
      simp [scanGo, char_to_token_renderTok, ih TokenizerState.Token (by decide)]
    | TrailingWhitespace => exact absurd rfl hst

lemma map_strip_getElem? (A B : List Token) (h : A.map strip = B.map strip) (n : Nat) :
    (A[n]?).map strip = (B[n]?).map strip := by
  rw [← List.getElem?_map, ← List.getElem?_map, h]

lemma depthAdjF_congr (d : Nat) (ta tb : Token) (h : strip ta = strip tb) :
    depthAdjF d ta = depthAdjF d tb := by
  cases ta <;> cases tb <;> simp_all [strip, depthAdjF]

lemma depthAdjB_congr (d : Nat) (ta tb : Token) (h : strip ta = strip tb) :
    depthAdjB d ta = depthAdjB d tb := by
  cases ta <;> cases tb <;> simp_all [strip, depthAdjB]

lemma scanFGo_congr (A B : List Token) (h : A.map strip = B.map strip) :
    ∀ fuel d p, scanFGo A fuel d p = scanFGo B fuel d p := by
  have hlen : A.length = B.length := by
    have := congrArg List.length h
    simpa using this
  intro fuel
  induction fuel with
  | zero => intro d p; rfl
  | succ fuel ih =>
    intro d p
    by_cases hc : 0 < d ∧ p < A.length
    · have hc' : 0 < d ∧ p < B.length := by omega
      simp only [scanFGo, if_pos hc, if_pos hc']
      have hopt := map_strip_getElem? A B h p
      cases ha : A[p]? with
      | none =>
        cases hb : B[p]? with
        | none => exact ih _ _
        | some tb => rw [ha, hb] at hopt; simp at hopt
      | some ta =>
        cases hb : B[p]? with
        | none => rw [ha, hb] at hopt; simp at hopt
        | some tb =>
          rw [ha, hb] at hopt
          simp only [Option.map_some'] at hopt
          show scanFGo A fuel (depthAdjF d ta) (p + 1)
            = scanFGo B fuel (depthAdjF d tb) (p + 1)
          rw [depthAdjF_congr d ta tb (Option.some.inj hopt)]
          exact ih _ _
    · have hc' : ¬(0 < d ∧ p < B.length) := by omega
      simp only [scanFGo, if_neg hc, if_neg hc']

lemma scanBGo_congr (A B : List Token) (h : A.map strip = B.map strip) :
    ∀ fuel d p, scanBGo A fuel d p = scanBGo B fuel d p := by
  intro fuel
  induction fuel with
  | zero => intro d p; rfl
  | succ fuel ih =>
    intro d p
    by_cases hc : 0 < d ∧ 0 < p
    · simp only [scanBGo, if_pos hc]
      have hopt := map_strip_getElem? A B h p
      cases ha : A[p]? with
      | none =>
        cases hb : B[p]? with
        | none => exact ih _ _
        | some tb => rw [ha, hb] at hopt; simp at hopt
      | some ta =>
        cases hb : B[p]? with
        | none => rw [ha, hb] at hopt; simp at hopt
        | some tb =>
          rw [ha, hb] at hopt
          simp only [Option.map_some'] at hopt
          show scanBGo A fuel (depthAdjB d ta) (p - 1)
            = scanBGo B fuel (depthAdjB d tb) (p - 1)
          rw [depthAdjB_congr d ta tb (Option.some.inj hopt)]
          exact ih _ _
    · simp only [scanBGo, if_neg hc]

lemma isOpenAt_congr (A B : List Token) (h : A.map strip = B.map strip) (n : Nat) :
    isOpenAt A n = isOpenAt B n := by
  have hopt := map_strip_getElem? A B h n
  unfold isOpenAt
  cases ha : A[n]? with
  | none =>
    cases hb : B[n]? with
    | none => rfl
    | some tb => rw [ha, hb] at hopt; simp at hopt
  | some ta =>
    cases hb : B[n]? with
    | none => rw [ha, hb] at hopt; simp at hopt
    | some tb =>
      rw [ha, hb] at hopt
      simp only [Option.map_some'] at hopt
      have := Option.some.inj hopt
      cases ta <;> cases tb <;> simp_all [strip]

lemma isCloseAt_congr (A B : List Token) (h : A.map strip = B.map strip) (n : Nat) :
    isCloseAt A n = isCloseAt B n := by
  have hopt := map_strip_getElem? A B h n
  unfold isCloseAt
  cases ha : A[n]? with
  | none =>
    cases hb : B[n]? with
    | none => rfl
    | some tb => rw [ha, hb] at hopt; simp at hopt
  | some ta =>
    cases hb : B[n]? with
    | none => rw [ha, hb] at hopt; simp at hopt
    | some tb =>
      rw [ha, hb] at hopt
      simp only [Option.map_some'] at hopt
      have := Option.some.inj hopt
      cases ta <;> cases tb <;> simp_all [strip]

lemma scanF_congr (A B : List Token) (h : A.map strip = B.map strip) (d p : Nat) :
    scanF A d p = scanF B d p := by
  have hlen : A.length = B.length := by
    have := congrArg List.length h
    simpa using this
  unfold scanF
  rw [hlen]
  exact scanFGo_congr A B h _ d p

lemma scanB_congr (A B : List Token) (h : A.map strip = B.map strip) (d p : Nat) :
    scanB A d p = scanB B d p := by
  have hlen : A.length = B.length := by
    have := congrArg List.length h
    simpa using this
  unfold scanB
  rw [hlen]
  exact scanBGo_congr A B h _ d p

lemma resolveTok_congr (A B : List Token) (h : A.map strip = B.map strip)
    (i : Nat) (ta tb : Token) (ht : strip ta = strip tb) :
    resolveTok A i ta = resolveTok B i tb := by
  cases ta <;> cases tb <;> simp [strip] at ht <;> try rfl
  · -- both open
    simp only [resolveTok, scanF_congr A B h, isCloseAt_congr A B h]
  · -- both close
    simp only [resolveTok, scanB_congr A B h, isOpenAt_congr A B h]

lemma resolveGo_congr (A B : List Token) (h : A.map strip = B.map strip) :
    ∀ (X Y : List Token), X.map strip = Y.map strip →
      ∀ i, resolveGo A i X = resolveGo B i Y := by
  intro X
  induction X with
  | nil =>
    intro Y hXY i
    cases Y with
    | nil => rfl
    | cons y Y => simp at hXY
  | cons x X ih =>
    intro Y hXY i
    cases Y with
    | nil => simp at hXY
    | cons y Y =>
      simp only [List.map_cons, List.cons.injEq] at hXY
      obtain ⟨hxy, hXY'⟩ := hXY
      simp only [resolveGo]
      rw [resolveTok_congr A B h i x y hxy, ih Y hXY' (i + 1)]

lemma resolveTok_strip (L : List Token) (i : Nat) (t r : Token)
    (h : resolveTok L i t = some r) : strip r = strip t := by
  cases t with
  | RAngle => simp only [resolveTok] at h; cases h; rfl
  | LAngle => simp only [resolveTok] at h; cases h; rfl
  | Plus => simp only [resolveTok] at h; cases h; rfl
  | Minus => simp only [resolveTok] at h; cases h; rfl
  | Period => simp only [resolveTok] at h; cases h; rfl
  | Comma => simp only [resolveTok] at h; cases h; rfl
  | LBracket k =>
    simp only [resolveTok] at h
    by_cases hc : isCloseAt L (scanF L 1 (i + 1) - 1) = true
    · rw [if_pos hc] at h; cases h; rfl
    · rw [if_neg hc] at h; exact absurd h (by simp)
  | RBracket k =>
    simp only [resolveTok] at h
    by_cases hi : i = 0
    · rw [if_pos hi] at h; exact absurd h (by simp)
    · rw [if_neg hi] at h
      by_cases ho : isOpenAt L (scanB L 1 (i - 1) + 1) = true
      · rw [if_pos ho] at h; cases h; rfl
      · rw [if_neg ho] at h
        by_cases hq : scanB L 1 (i - 1) = 0
        · rw [if_pos hq] at h; cases h; rfl
        · rw [if_neg hq] at h; exact absurd h (by simp)

lemma resolveGo_strip (L : List Token) :
    ∀ (X R : List Token) (i : Nat), resolveGo L i X = some R →
      R.map strip = X.map strip := by
  intro X
  induction X with
  | nil =>
    intro R i h
    simp only [resolveGo] at h
    cases h
    rfl
  | cons t rest ih =>
    intro R i h
    simp only [resolveGo] at h
    cases hr : resolveTok L i t with
    | none => rw [hr] at h; exact absurd h (by simp)
    | some r =>
      rw [hr] at h
      cases hrs : resolveGo L (i + 1) rest with
      | none => rw [hrs] at h; exact absurd h (by simp)
      | some rs =>
        rw [hrs] at h
        cases h
        simp [resolveTok_strip L i t r hr, ih rs (i + 1) hrs]

/-- Claim C10: lexing is idempotent on rendering: tokenizing the
canonical textual rendering of a successfully tokenized Program
reproduces the same Program, resolved jump targets included. -/
theorem tokenize_render_idempotent (cs : List Char) (ts : List Token)
    (h : tokenize cs = some ts) : tokenize (render ts) = some ts := by
  unfold tokenize at h ⊢
  have hstrip : ts.map strip = (scan cs).map strip :=
    resolveGo_strip (scan cs) (scan cs) ts 0 h
  have hscan : scan (render ts) = ts.map strip :=
    scanGo_render ts TokenizerState.LeadingWhitespace (by decide)
  rw [hscan]
  have hstrip2 : (ts.map strip).map strip = (scan cs).map strip := by
    rw [map_strip_idem]
    exact hstrip
  have hc : resolve (ts.map strip) = resolve (scan cs) :=
    resolveGo_congr (ts.map strip) (scan cs) hstrip2 (ts.map strip) (scan cs) hstrip2 0
  rw [hc]
  exact h

/-- Witness for C10 at the concrete program "+[-]". -/
theorem tokenize_render_idempotent_witness :
    tokenize (render [Token.Plus, Token.LBracket 4, Token.Minus, Token.RBracket 0]) =
      some [Token.Plus, Token.LBracket 4, Token.Minus, Token.RBracket 0] :=
  tokenize_render_idempotent (String.toList "+[-]")
    [Token.Plus, Token.LBracket 4, Token.Minus, Token.RBracket 0] (by decide)

end Brainrust
